import Mathlib

/-!
Shallow embedding of `src/guess-who/src/persistence/pathStore.ts` (and the
path utilities it uses) together with proofs about the behaviour of the
persistence layer.

The IndexedDb object store `KeyValue` is modelled as a list of
`KeyValueRecord`s whose `key` fields are the primary keys; `objectStore.get`,
`objectStore.put` and `objectStore.delete` become `lookup`, `putRaw` and
`deleteRaw`.  Thrown JavaScript errors / rejected promises become `Except`
errors.  `Date.now()` becomes an explicit `now : Nat` argument threaded into
the operations that stamp timestamps.  Upgrade handlers inside
`_upgradeRecord` are modelled as an explicit list of version-tagged
transformation steps (the shipped code registers none, so the live instance
uses the empty list).
-/

namespace PathStore

/-- `SCHEMA_VERSION` constant from pathStore.ts. -/
def SCHEMA_VERSION : Nat := 1

/-- `APP_DATA_VERSION` constant from pathStore.ts. -/
def APP_DATA_VERSION : Nat := 1

/-- `MIMETYPE_PLAIN_TEXT` from mimeTypes.ts. -/
def MIMETYPE_PLAIN_TEXT : String := "text/plain"

/-- `MIMETYPE_OCTET_STREAM` from mimeTypes.ts. -/
def MIMETYPE_OCTET_STREAM : String := "application/octet-stream"

/-- The record shape stored in the `KeyValue` object store (pathStore.ts,
`KeyValueRecord`).  `bytes` (a `Uint8Array` in the source) is modelled as a
list of byte values. -/
structure KeyValueRecord where
  key : String
  path : String
  appDataVersion : Nat
  mimeType : String
  lastModified : Nat
  text : Option String
  bytes : Option (List Nat)
deriving DecidableEq, Repr

/-- The `KeyValue` object store: a list of records keyed by their `key`
field (the IndexedDb store is declared with `keyPath: 'key'`). -/
abbrev Store := List KeyValueRecord

/-- Errors thrown by the store operations (rejected promises / thrown
`Error`s in the source). -/
inductive StoreErr where
  /-- The JavaScript `TypeError` raised by `_getRecordByKey` when
  `record.appDataVersion` is read off the `undefined` result that
  `_get` resolves for an absent key. -/
  | typeErrorUndefined
  /-- `_getRecordByKey`: "Record at ... is v... while app only knows versions up to v...". -/
  | versionTooNew
  /-- `_upgradeRecord`: "Record at ... did not have upgrade handling.". -/
  | unupgradableRecord
  /-- `_replaceRecordUsingNewKey`: "Did not find existing record matching ... key.". -/
  | missingRecordOnRename
deriving DecidableEq, Repr

/-!  ## Path utilities

`pathUtil.ts` itself is not among the provided sources (only its unit tests
are), so `keyToPath` / `keyToName` are modelled from the spec. -/

/-- Modelled from the spec: `keyToName` of pathUtil.ts (file absent from the
sources; behaviour fixed by spec section 4.1 and `pathUtil.test.ts`):
"substring after the last `/` (or the whole string if no `/`)". -/
def keyToName (key : String) : String :=
  String.mk (key.data.reverse.takeWhile (fun c => c ≠ '/')).reverse

/-- Modelled from the spec: `keyToPath` of pathUtil.ts (file absent from the
sources; behaviour fixed by spec section 4.1 and `pathUtil.test.ts`):
"empty input → empty string; no `/` in key → empty string; otherwise the
substring from the start through the last `/` inclusive". -/
def keyToPath (key : String) : String :=
  String.mk (key.data.take
    (key.data.length - (key.data.reverse.takeWhile (fun c => c ≠ '/')).length))

/-!  ## Database primitives

`_get` / `_put` / `_delete` over the `KeyValue` store. -/

/-- `_get(db, KEY_VALUE_STORE, key)`: resolves the record whose primary key
is `key`, or `none` (JavaScript `undefined`) when absent. -/
def lookup (st : Store) (key : String) : Option KeyValueRecord :=
  st.find? (fun r => r.key == key)

/-- `_put(db, KEY_VALUE_STORE, r)`: IndexedDb `put` is insert-or-replace by
primary key: it replaces the record stored under `r.key`, or appends `r`
when no record with that key exists. -/
def putRaw : Store → KeyValueRecord → Store
  | [], r => [r]
  | x :: rest, r => if x.key == r.key then r :: rest else x :: putRaw rest r

/-- `_delete(db, KEY_VALUE_STORE, key)`: removes the record stored under
`key` (a no-op when the key is absent). -/
def deleteRaw (st : Store) (key : String) : Store :=
  st.filter (fun r => !(r.key == key))

theorem lookup_nil (key : String) : lookup [] key = none := rfl

theorem lookup_cons (x : KeyValueRecord) (rest : Store) (q : String) :
    lookup (x :: rest) q = if x.key = q then some x else lookup rest q := by
  by_cases h : x.key = q <;> simp [lookup, List.find?_cons, h]

theorem lookup_putRaw (st : Store) (r : KeyValueRecord) (q : String) :
    lookup (putRaw st r) q = if r.key = q then some r else lookup st q := by
  induction st with
  | nil =>
    simp [putRaw, lookup_cons, lookup_nil]
  | cons x rest ih =>
    by_cases hx : x.key = r.key
    · have hput : putRaw (x :: rest) r = r :: rest := by simp [putRaw, hx]
      rw [hput, lookup_cons, lookup_cons]
      by_cases h : r.key = q
      · simp [h]
      · have hxq : ¬(x.key = q) := by rw [hx]; exact h
        simp [h, hxq]
    · have hput : putRaw (x :: rest) r = x :: putRaw rest r := by
        simp [putRaw, hx]
      rw [hput, lookup_cons, ih, lookup_cons]
      by_cases hq : x.key = q
      · have hr : ¬(r.key = q) := by
          intro hrq; exact hx (hq.trans hrq.symm)
        simp [hq, hr]
      · by_cases h : r.key = q <;> simp [hq, h]

theorem lookup_deleteRaw (st : Store) (k q : String) :
    lookup (deleteRaw st k) q = if q = k then none else lookup st q := by
  induction st with
  | nil => by_cases h : q = k <;> simp [lookup_nil, deleteRaw, h]
  | cons x rest ih =>
    by_cases hk : x.key = k
    · have : deleteRaw (x :: rest) k = deleteRaw rest k := by
        simp [deleteRaw, hk]
      rw [this, ih]
      by_cases h : q = k
      · simp [h]
      · have hxq : ¬(x.key = q) := by
          intro hxq; exact h (hxq ▸ hk)
        simp [h, lookup_cons, hxq]
    · have : deleteRaw (x :: rest) k = x :: deleteRaw rest k := by
        simp [deleteRaw, hk]
      rw [this, lookup_cons, lookup_cons, ih]
      by_cases hq : x.key = q
      · have h : ¬(q = k) := by
          intro hqk; exact hk (hq.trans hqk)
        simp [hq, h]
      · by_cases h : q = k
        · subst h
          simp [hq]
        · simp [hq, h]

theorem lookup_key_eq {st : Store} {key : String} {r : KeyValueRecord}
    (h : lookup st key = some r) : r.key = key := by
  have := List.find?_some h
  exact of_decide_eq_true this

theorem lookup_mem {st : Store} {key : String} {r : KeyValueRecord}
    (h : lookup st key = some r) : r ∈ st :=
  List.mem_of_find?_eq_some h

/-!  ## Regex scan

`getAllKeysMatchingRegex` applied to the pattern built by `_renamePath`:
`new RegExp(escapeRegexCharacters(currentPath) + ".*", '')`.
`escapeRegexCharacters` (from regExUtil, absent from the sources) is,
per the spec, "an escape helper for embedding arbitrary strings as literal
regex fragments", so the pattern matches the literal `currentPath` followed
by anything.  The regex is not anchored and `regex.test(key)` succeeds
whenever the pattern matches anywhere in `key`; hence the scan selects
exactly the keys that contain `currentPath` as a substring. -/

/-- `hasSub pat l` is true when `pat` occurs as a contiguous substring of
`l` (the semantics of the unanchored `regex.test` in `_renamePath`). -/
def hasSub (pat : List Char) : List Char → Bool
  | [] => pat.isEmpty
  | c :: rest => pat.isPrefixOf (c :: rest) || hasSub pat rest

theorem isPrefixOf_exists : ∀ (a b : List Char), a.isPrefixOf b = true →
    ∃ t, b = a ++ t := by
  intro a
  induction a with
  | nil => intro b _; exact ⟨b, rfl⟩
  | cons c a ih =>
    intro b h
    cases b with
    | nil => simp [List.isPrefixOf] at h
    | cons d b =>
      simp only [List.isPrefixOf, Bool.and_eq_true, beq_iff_eq] at h
      obtain ⟨t, ht⟩ := ih b h.2
      exact ⟨t, by rw [h.1, ht]; rfl⟩

theorem exists_isPrefixOf : ∀ (a t : List Char), a.isPrefixOf (a ++ t) = true := by
  intro a t
  induction a with
  | nil => simp [List.isPrefixOf]
  | cons c a ih => simp [List.isPrefixOf, ih]

theorem hasSub_length_le : ∀ (pat l : List Char), hasSub pat l = true →
    pat.length ≤ l.length := by
  intro pat l
  induction l with
  | nil =>
    intro h
    simp only [hasSub, List.isEmpty_iff] at h
    simp [h]
  | cons c rest ih =>
    intro h
    simp only [hasSub, Bool.or_eq_true] at h
    cases h with
    | inl h =>
      obtain ⟨t, ht⟩ := isPrefixOf_exists _ _ h
      rw [ht]
      simp
    | inr h => exact Nat.le_succ_of_le (ih h)

/-!  ## Record upgrade machinery

`_upgradeRecord` consists of an ordered cascade of version handlers (shown
as the commented example in the source: each handler fires when
`record.appDataVersion` equals its starting version and rewrites the
record, bumping the version) followed by a final check that throws
"did not have upgrade handling" when the cascade did not reach
`APP_DATA_VERSION`.  The registry of handlers is modelled as a list of
(starting version, transformation) pairs applied in order; the shipped code
registers none, so the live instance (`liveSteps`) is the empty list. -/

abbrev UpgradeStep := Nat × (KeyValueRecord → KeyValueRecord)

/-- The handler cascade of `_upgradeRecord`: run each handler in order; a
handler fires only when the record's current version equals its starting
version. -/
def applySteps (steps : List UpgradeStep) (r : KeyValueRecord) : KeyValueRecord :=
  steps.foldl (fun r s => if r.appDataVersion = s.1 then s.2 r else r) r

/-- `_upgradeRecord(record)` with handler registry `steps` and expected
version `expected`: run the cascade, then fail with
`unupgradableRecord` unless the record reached `expected`. -/
def upgradeRecord (steps : List UpgradeStep) (expected : Nat)
    (r : KeyValueRecord) : Except StoreErr KeyValueRecord :=
  let r2 := applySteps steps r
  if r2.appDataVersion ≠ expected then .error .unupgradableRecord else .ok r2

/-- The shipped code registers no upgrade handlers. -/
def liveSteps : List UpgradeStep := []

/-!  ## `_getRecordByKey` and field writes -/

/-- `_getRecordByKey(key)`.  Returns the looked-up record together with the
store as left behind (the version-upgrade path persists the upgraded record
with `_put`).  When no record exists, `_get` resolves `undefined` and the
subsequent `record.appDataVersion` access throws a JavaScript `TypeError`,
so the absent case is an error, not a `none` result. -/
def getRecordByKey (steps : List UpgradeStep) (expected : Nat)
    (st : Store) (key : String) : Except StoreErr (KeyValueRecord × Store) :=
  match lookup st key with
  | none => .error .typeErrorUndefined
  | some record =>
    if record.appDataVersion = expected then .ok (record, st)
    else if record.appDataVersion > expected then .error .versionTooNew
    else
      match upgradeRecord steps expected record with
      | .error e => .error e
      | .ok r2 => .ok (r2, putRaw st r2)

/-- `_setFieldValue(key, fieldName, fieldValue, mimeType)`: read the record
(the `?? ... key ...` fallback in the source is unreachable because
`_getRecordByKey` never resolves `undefined` — it throws first), assign the
field, restamp `path`, `appDataVersion`, `mimeType` and `lastModified`
(`Date.now()` is the explicit `now`), and put the result. -/
def setFieldValue (steps : List UpgradeStep) (expected : Nat) (st : Store)
    (key : String) (assign : KeyValueRecord → KeyValueRecord)
    (mimeType : String) (now : Nat) : Except StoreErr Store :=
  match getRecordByKey steps expected st key with
  | .error e => .error e
  | .ok (record, st1) =>
    let r := assign record
    .ok (putRaw st1 { r with
      path := keyToPath key,
      appDataVersion := expected,
      mimeType := mimeType,
      lastModified := now })

/-- `getText(key)`: the text payload of the record (paired with the store
left behind by the lazy-upgrade read). -/
def getText (st : Store) (key : String) :
    Except StoreErr (Option String × Store) :=
  match getRecordByKey liveSteps APP_DATA_VERSION st key with
  | .error e => .error e
  | .ok (record, st1) => .ok (record.text, st1)

/-- `getBytes(key)`: the byte payload of the record. -/
def getBytes (st : Store) (key : String) :
    Except StoreErr (Option (List Nat) × Store) :=
  match getRecordByKey liveSteps APP_DATA_VERSION st key with
  | .error e => .error e
  | .ok (record, st1) => .ok (record.bytes, st1)

/-- `setText(key, text, mimeType)`. -/
def setText (st : Store) (key : String) (text : Option String)
    (mimeType : String) (now : Nat) : Except StoreErr Store :=
  setFieldValue liveSteps APP_DATA_VERSION st key
    (fun r => { r with text := text }) mimeType now

/-- `setBytes(key, bytes, mimeType)`. -/
def setBytes (st : Store) (key : String) (bytes : Option (List Nat))
    (mimeType : String) (now : Nat) : Except StoreErr Store :=
  setFieldValue liveSteps APP_DATA_VERSION st key
    (fun r => { r with bytes := bytes }) mimeType now

/-!  ## Query layer -/

/-- `getAllKeys()`: all primary keys of the `KeyValue` store. -/
def getAllKeys (st : Store) : List String :=
  st.map (fun r => r.key)

/-- `getAllKeysAtPath(path)`: primary keys of the records whose indexed
`path` field equals `path` exactly (the `pathIndex` lookup). -/
def getAllKeysAtPath (st : Store) (path : String) : List String :=
  (st.filter (fun r => r.path == path)).map (fun r => r.key)

/-- `getAllValuesAtPath(path)`: the records whose indexed `path` field
equals `path`, returned exactly as stored (no version check, no upgrade). -/
def getAllValuesAtPath (st : Store) (path : String) : List KeyValueRecord :=
  st.filter (fun r => r.path == path)

/-- `getValuesForKeys(keys)`: order-preserving batch point lookup; a miss
resolves to `none` (`request.result` is `undefined`), again with no version
check and no upgrade. -/
def getValuesForKeys (st : Store) (keys : List String) :
    List (Option KeyValueRecord) :=
  keys.map (fun k => lookup st k)

/-!  ## Rename operations -/

/-- `_changePathOfKey(key, path, nextPath)`:
`nextPath + key.slice(path.length)`. -/
def changePathOfKey (key path nextPath : String) : String :=
  nextPath ++ String.mk (key.data.drop path.data.length)

/-- `_replaceRecordUsingNewKey(db, key, nextKey, updateLastModified)`:
fails when no record exists at `key`; otherwise rewrites `key`, recomputes
`path`, optionally restamps `lastModified` with `Date.now()` (= `now`),
puts the rewritten record and deletes the old entry. -/
def replaceRecordUsingNewKey (st : Store) (key nextKey : String)
    (updateLastModified : Bool) (now : Nat) : Except StoreErr Store :=
  match lookup st key with
  | none => .error .missingRecordOnRename
  | some record =>
    .ok (deleteRaw
      (putRaw st { record with
        key := nextKey,
        path := keyToPath nextKey,
        lastModified := if updateLastModified then now else record.lastModified })
      key)

/-- The key scan of `_renamePath`: `getAllKeysMatchingRegex` applied to the
unanchored pattern `escapeRegexCharacters(currentPath) + ".*"`, i.e. all
keys containing `currentPath` as a substring. -/
def matchedKeys (st : Store) (currentPath : String) : List String :=
  (getAllKeys st).filter (fun k => hasSub currentPath.data k.data)

/-- `_renamePath(db, currentPath, nextPath)` (= the public `renamePath`):
scan for the keys matching the unanchored regex, then replace each matched
key by `_changePathOfKey(key, currentPath, nextPath)` without updating
`lastModified`.  The `Promise.all` over the per-key replacements is
modelled by performing them in scan order. -/
def renamePath (st : Store) (currentPath nextPath : String) :
    Except StoreErr Store :=
  (matchedKeys st currentPath).foldlM
    (fun s k =>
      replaceRecordUsingNewKey s k (changePathOfKey k currentPath nextPath)
        false 0)
    st

/-- `renameKey(currentKey, nextKey)`: move the single record (updating its
`lastModified`), then cascade `_renamePath(currentKey + "/", nextKey + "/")`
over the resulting store. -/
def renameKey (st : Store) (currentKey nextKey : String) (now : Nat) :
    Except StoreErr Store :=
  match replaceRecordUsingNewKey st currentKey nextKey true now with
  | .error e => .error e
  | .ok st1 => renamePath st1 (currentKey ++ "/") (nextKey ++ "/")

/-!  ## Bulk delete -/

/-- `deleteAllKeys(keys)`: delete each listed key in one transaction. -/
def deleteAllKeys (st : Store) (keys : List String) : Store :=
  keys.foldl (fun s k => deleteRaw s k) st

/-- `deleteAllKeysAtPathExcept(path, exceptKeys)`: collect the keys whose
record's `path` field equals `path`, drop the excepted ones, and bulk
delete the rest (returning immediately when nothing is left to delete). -/
def deleteAllKeysAtPathExcept (st : Store) (path : String)
    (exceptKeys : List String) : Store :=
  let keys := getAllKeysAtPath st path
  let keysToDelete := keys.filter (fun k => !(exceptKeys.contains k))
  if keysToDelete.isEmpty then st else deleteAllKeys st keysToDelete

/-!  ## General list lemmas used below -/

theorem str_ext {a b : String} (h : a.data = b.data) : a = b := by
  cases a; cases b; cases h; rfl

theorem mk_data (k : String) : String.mk k.data = k := by
  cases k; rfl

theorem data_append (a b : String) : (a ++ b).data = a.data ++ b.data := rfl

theorem takeWhile_eq_take_len (p : Char → Bool) (l : List Char) :
    l.takeWhile p = l.take (l.takeWhile p).length := by
  induction l with
  | nil => rfl
  | cons c l ih =>
    cases hp : p c
    · simp [List.takeWhile_cons, hp]
    · simp [List.takeWhile_cons, hp, List.take_succ_cons]
      exact ih

theorem takeWhile_all (p : Char → Bool) (l : List Char)
    (h : ∀ c ∈ l, p c = true) : l.takeWhile p = l := by
  induction l with
  | nil => rfl
  | cons c l ih =>
    have hc : p c = true := h c (List.mem_cons_self c l)
    simp [List.takeWhile_cons, hc]
    exact fun d hd => h d (List.mem_cons_of_mem c hd)

theorem rev_take_rev (a b : List Char) :
    ((a ++ b).reverse.take b.length).reverse = b := by
  rw [List.reverse_append, ← List.length_reverse b, List.take_left,
    List.reverse_reverse]

theorem drop_of_rev_take (l : List Char) (m : Nat) (h : m ≤ l.length) :
    (l.reverse.take m).reverse = l.drop (l.length - m) := by
  have hlen : (l.drop (l.length - m)).length = m := by
    rw [List.length_drop]; omega
  have h2 := rev_take_rev (l.take (l.length - m)) (l.drop (l.length - m))
  rw [List.take_append_drop] at h2
  rw [hlen] at h2
  exact h2

theorem length_takeWhile (p : Char → Bool) (l : List Char) :
    (l.takeWhile p).length ≤ l.length := by
  induction l with
  | nil => simp
  | cons c l ih =>
    cases hp : p c
    · simp [List.takeWhile_cons, hp]
    · simp [List.takeWhile_cons, hp]
      omega

/-- The path/name split always reassembles the key (at the character-list
level). -/
theorem keyToPath_append_keyToName_data (k : String) :
    (keyToPath k).data ++ (keyToName k).data = k.data := by
  unfold keyToPath keyToName
  set l := k.data with hl
  set p : Char → Bool := fun c => decide (c ≠ '/') with hp
  set m := (l.reverse.takeWhile p).length with hm
  have hmle : m ≤ l.length := by
    have := length_takeWhile p l.reverse
    rw [List.length_reverse] at this
    exact this
  have hname : (l.reverse.takeWhile p).reverse = l.drop (l.length - m) := by
    rw [takeWhile_eq_take_len p l.reverse, ← hm]
    exact drop_of_rev_take l m hmle
  rw [hname]
  exact List.take_append_drop _ l

/-!  ## Claim C1 -/

/-- C1: the claim says that for a key with no stored record,
`setText(k, v)` succeeds and creates a record (write-if-absent).  The code
instead rejects: `_setFieldValue` awaits `_getRecordByKey`, which reads
`record.appDataVersion` off the `undefined` result and throws a
`TypeError`, so the `?? ... key ...` write-if-absent fallback is never
reached.  This theorem evaluates the code at the failing input: the very
first write to a key fails instead of creating the record. -/
theorem C1_setText_on_absent_key_throws :
    setText [] "k" (some "hello") MIMETYPE_PLAIN_TEXT 100 =
      .error .typeErrorUndefined := rfl

/-!  ## Claim C2 -/

/-- C2: the claim says reads of an absent key return null.  The code
instead rejects with the `TypeError` thrown inside `_getRecordByKey`
(reading `appDataVersion` of `undefined`), so `getText` and `getBytes` on a
missing key are rejected operations, not null results. -/
theorem C2_get_on_absent_key_throws :
    getText ([] : Store) "missing" = .error .typeErrorUndefined ∧
    getBytes ([] : Store) "missing" = .error .typeErrorUndefined :=
  ⟨rfl, rfl⟩

/-!  ## Claim C9 -/

/-- C9: for every key string `k`: if `k` contains at least one `/`, then
`keyToPath k` concatenated with `keyToName k` equals `k`; and if `k`
contains no `/`, then `keyToPath k` is the empty string and `keyToName k`
equals `k`.  (`keyToPath` / `keyToName` are modelled from the spec since
pathUtil.ts is absent from the sources.) -/
theorem C9_keyToPath_keyToName (k : String) :
    ('/' ∈ k.data → keyToPath k ++ keyToName k = k) ∧
    ('/' ∉ k.data → keyToPath k = "" ∧ keyToName k = k) := by
  constructor
  · intro _
    apply str_ext
    rw [data_append]
    exact keyToPath_append_keyToName_data k
  · intro h
    have hall : ∀ c ∈ k.data.reverse, (fun c => decide (c ≠ '/')) c = true := by
      intro c hc
      rw [List.mem_reverse] at hc
      simp only [decide_eq_true_eq]
      exact fun he => h (he ▸ hc)
    unfold keyToPath keyToName
    rw [takeWhile_all _ _ hall]
    constructor
    · rw [List.length_reverse, Nat.sub_self, List.take_zero]
    · rw [List.reverse_reverse]

/-- Witness for C9 at concrete keys from the unit tests. -/
theorem C9_witness :
    keyToPath "/pets/dog" ++ keyToName "/pets/dog" = "/pets/dog" ∧
    (keyToPath "dog" = "" ∧ keyToName "dog" = "dog") :=
  ⟨(C9_keyToPath_keyToName "/pets/dog").1 (by decide),
   (C9_keyToPath_keyToName "dog").2 (by decide)⟩

/-!  ## Claim C3 -/

/-- C3: version policy of `_getRecordByKey` for a stored record: equal
version → returned as-is (store untouched); greater → `versionTooNew`
error; lower → routed through the upgrader, and when the upgrade succeeds
the upgraded record is persisted (`_put`) and returned. -/
theorem C3_version_policy (steps : List UpgradeStep) (expected : Nat)
    (st : Store) (key : String) (r : KeyValueRecord)
    (h : lookup st key = some r) :
    (r.appDataVersion = expected →
      getRecordByKey steps expected st key = .ok (r, st)) ∧
    (r.appDataVersion > expected →
      getRecordByKey steps expected st key = .error .versionTooNew) ∧
    (∀ r2, r.appDataVersion < expected →
      upgradeRecord steps expected r = .ok r2 →
      getRecordByKey steps expected st key = .ok (r2, putRaw st r2)) := by
  refine ⟨?_, ?_, ?_⟩
  · intro he
    simp [getRecordByKey, h, he]
  · intro hgt
    have hne : ¬(r.appDataVersion = expected) := by omega
    simp [getRecordByKey, h, hne, hgt]
  · intro r2 hlt hup
    have hne : ¬(r.appDataVersion = expected) := by omega
    have hngt : ¬(r.appDataVersion > expected) := by omega
    simp [getRecordByKey, h, hne, hngt, hup]

def wEq : KeyValueRecord :=
  { key := "e", path := "", appDataVersion := 1, mimeType := "m",
    lastModified := 0, text := none, bytes := none }

def wGt : KeyValueRecord :=
  { key := "g", path := "", appDataVersion := 2, mimeType := "m",
    lastModified := 0, text := none, bytes := none }

def wLt : KeyValueRecord :=
  { key := "l", path := "", appDataVersion := 0, mimeType := "m",
    lastModified := 0, text := none, bytes := none }

def wSteps : List UpgradeStep :=
  [(0, fun r => { r with appDataVersion := 1 })]

/-- Witness for C3: one concrete store per case of the version policy. -/
theorem C3_witness :
    getRecordByKey [] 1 [wEq] "e" = .ok (wEq, [wEq]) ∧
    getRecordByKey [] 1 [wGt] "g" = .error .versionTooNew ∧
    getRecordByKey wSteps 1 [wLt] "l" =
      .ok ({ wLt with appDataVersion := 1 },
           putRaw [wLt] { wLt with appDataVersion := 1 }) :=
  ⟨(C3_version_policy [] 1 [wEq] "e" wEq rfl).1 rfl,
   (C3_version_policy [] 1 [wGt] "g" wGt rfl).2.1 (by decide),
   (C3_version_policy wSteps 1 [wLt] "l" wLt rfl).2.2
     { wLt with appDataVersion := 1 } (by decide) rfl⟩

/-!  ## Claim C7 -/

/-- Unfolding equation for `getRecordByKey` when the key is present. -/
theorem getRecordByKey_eq_some (steps : List UpgradeStep) (expected : Nat)
    (st : Store) (key : String) (rec : KeyValueRecord)
    (hl : lookup st key = some rec) :
    getRecordByKey steps expected st key =
      (if rec.appDataVersion = expected then .ok (rec, st)
       else if rec.appDataVersion > expected then .error .versionTooNew
       else match upgradeRecord steps expected rec with
         | .error e => .error e
         | .ok r2 => .ok (r2, putRaw st r2)) := by
  unfold getRecordByKey
  rw [hl]

theorem upgradeRecord_ok_version {steps : List UpgradeStep} {expected : Nat}
    {x r2 : KeyValueRecord} (h : upgradeRecord steps expected x = .ok r2) :
    r2.appDataVersion = expected := by
  unfold upgradeRecord at h
  by_cases hv : (applySteps steps x).appDataVersion ≠ expected
  · simp [hv] at h
  · simp [hv] at h
    rw [← h]
    exact not_ne_iff.mp hv

/-- C7: when a stored record's version is below the expected version and
the registered handler cascade does not bring it up to the expected
version, the read fails with the `unupgradableRecord` error ("did not have
upgrade handling") rather than silently returning the record.  (The
handler registry is modelled from the spec / the commented example in
`_upgradeRecord`; the shipped code registers no handlers.) -/
theorem C7_unbridgeable_upgrade_fails (steps : List UpgradeStep)
    (expected : Nat) (st : Store) (key : String) (r : KeyValueRecord)
    (h : lookup st key = some r)
    (hlt : r.appDataVersion < expected)
    (hgap : (applySteps steps r).appDataVersion ≠ expected) :
    getRecordByKey steps expected st key = .error .unupgradableRecord := by
  have hne : ¬(r.appDataVersion = expected) := by omega
  have hngt : ¬(r.appDataVersion > expected) := by omega
  have hup : upgradeRecord steps expected r = .error .unupgradableRecord := by
    unfold upgradeRecord
    simp [hgap]
  simp [getRecordByKey, h, hne, hngt, hup]

def c7rec : KeyValueRecord :=
  { key := "o", path := "", appDataVersion := 1, mimeType := "m",
    lastModified := 0, text := none, bytes := none }

def c7steps : List UpgradeStep :=
  [(1, fun r => { r with appDataVersion := 2 })]

/-- Witness for C7: the spec's concrete scenario — a record at version 1,
expected version 3, only a 1→2 step registered. -/
theorem C7_witness :
    getRecordByKey c7steps 3 [c7rec] "o" = .error .unupgradableRecord :=
  C7_unbridgeable_upgrade_fails c7steps 3 [c7rec] "o" c7rec rfl
    (by decide) (by decide)

/-!  ## Claim C4 -/

def c4rec : KeyValueRecord :=
  { key := "k", path := "p", appDataVersion := 2,
    mimeType := MIMETYPE_PLAIN_TEXT, lastModified := 3, text := some "t",
    bytes := none }

/-- C4 counterexample: both `getAllValuesAtPath` and `getValuesForKeys`
succeed and hand back a stored record whose `appDataVersion` (2) differs
from `APP_DATA_VERSION` (1) — neither performs a version check or an
upgrade, refuting the claim that every record returned by any read
operation has the expected version or the read fails. -/
theorem C4_counterexample :
    (getAllValuesAtPath [c4rec] "p" = [c4rec] ∧
     getValuesForKeys [c4rec] ["k"] = [some c4rec]) ∧
    c4rec.appDataVersion ≠ APP_DATA_VERSION :=
  ⟨⟨rfl, rfl⟩, by decide⟩

/-- C4 amended: records returned through `_getRecordByKey` (hence
`getText`/`getBytes` and the `IfModified` variants) always carry
`appDataVersion = expected` on success; but `getAllValuesAtPath` and
`getValuesForKeys` bypass `_getRecordByKey` and return stored records
exactly as they are (every record they produce is a member of the store,
unmodified), without any version check, upgrade or failure. -/
theorem C4_amended :
    (∀ (steps : List UpgradeStep) (expected : Nat) (st : Store)
        (key : String) (r : KeyValueRecord) (st1 : Store),
      getRecordByKey steps expected st key = .ok (r, st1) →
      r.appDataVersion = expected) ∧
    (∀ (st : Store) (path : String) (r : KeyValueRecord),
      r ∈ getAllValuesAtPath st path → r ∈ st) ∧
    (∀ (st : Store) (keys : List String) (r : KeyValueRecord),
      some r ∈ getValuesForKeys st keys → r ∈ st) := by
  refine ⟨?_, ?_, ?_⟩
  · intro steps expected st key r st1 h
    cases hl : lookup st key with
    | none =>
      unfold getRecordByKey at h
      rw [hl] at h
      cases h
    | some rec =>
      rw [getRecordByKey_eq_some steps expected st key rec hl] at h
      by_cases hv : rec.appDataVersion = expected
      · rw [if_pos hv] at h
        cases h
        exact hv
      · rw [if_neg hv] at h
        by_cases hgt : rec.appDataVersion > expected
        · rw [if_pos hgt] at h
          cases h
        · rw [if_neg hgt] at h
          cases hu : upgradeRecord steps expected rec with
          | error e => rw [hu] at h; cases h
          | ok r2 =>
            rw [hu] at h
            cases h
            exact upgradeRecord_ok_version hu
  · intro st path r h
    exact List.mem_of_mem_filter h
  · intro st keys r h
    obtain ⟨k, _, hk⟩ := List.mem_map.mp h
    have hk2 : lookup st k = some r := hk
    exact lookup_mem hk2

def c4wrec : KeyValueRecord :=
  { key := "w", path := "pp", appDataVersion := 1, mimeType := "m",
    lastModified := 0, text := none, bytes := none }

/-- Witness for C4's amended statement. -/
theorem C4_amended_witness :
    c4wrec.appDataVersion = 1 ∧ c4wrec ∈ ([c4wrec] : Store) ∧
    c4wrec ∈ ([c4wrec] : Store) :=
  ⟨C4_amended.1 [] 1 [c4wrec] "w" c4wrec [c4wrec] rfl,
   C4_amended.2.1 [c4wrec] "pp" c4wrec (by decide),
   C4_amended.2.2 [c4wrec] ["w"] c4wrec (by decide)⟩

/-!  ## Claim C8 -/

def c8rec : KeyValueRecord :=
  { key := "k", path := "", appDataVersion := 1,
    mimeType := MIMETYPE_PLAIN_TEXT, lastModified := 5, text := some "t",
    bytes := none }

/-- C8 counterexample: a successful `setText` whose `Date.now()` reading
equals the previously stored `lastModified` (two writes within the same
millisecond) stores a `lastModified` that is *equal*, not strictly
greater — the code stamps the raw clock with no monotonicity clamp. -/
theorem C8_counterexample :
    setText [c8rec] "k" (some "u") MIMETYPE_PLAIN_TEXT c8rec.lastModified =
      .ok [{ c8rec with text := some "u" }] ∧
    ¬ c8rec.lastModified <
        ({ c8rec with text := some "u" } : KeyValueRecord).lastModified :=
  ⟨rfl, by decide⟩

theorem getRecordByKey_live_ok {st : Store} {key : String}
    {r : KeyValueRecord} {st1 : Store}
    (h : getRecordByKey liveSteps APP_DATA_VERSION st key = .ok (r, st1)) :
    lookup st key = some r ∧ st1 = st ∧
      r.appDataVersion = APP_DATA_VERSION := by
  cases hl : lookup st key with
  | none =>
    unfold getRecordByKey at h
    rw [hl] at h
    cases h
  | some rec =>
    rw [getRecordByKey_eq_some liveSteps APP_DATA_VERSION st key rec hl] at h
    by_cases hv : rec.appDataVersion = APP_DATA_VERSION
    · rw [if_pos hv] at h
      simp only [Except.ok.injEq, Prod.mk.injEq] at h
      obtain ⟨hr, hs⟩ := h
      subst hr
      exact ⟨rfl, hs.symm, hv⟩
    · rw [if_neg hv] at h
      by_cases hgt : rec.appDataVersion > APP_DATA_VERSION
      · rw [if_pos hgt] at h
        cases h
      · rw [if_neg hgt] at h
        have hup : upgradeRecord liveSteps APP_DATA_VERSION rec =
            .error .unupgradableRecord := by
          unfold upgradeRecord applySteps liveSteps
          simp [hv]
        rw [hup] at h
        cases h

theorem setFieldValue_live_stamps (st : Store) (key : String)
    (assign : KeyValueRecord → KeyValueRecord) (mime : String) (now : Nat)
    (st2 : Store) (hkey : ∀ x, (assign x).key = x.key)
    (hok : setFieldValue liveSteps APP_DATA_VERSION st key assign mime now =
      .ok st2) :
    ∃ r2, lookup st2 key = some r2 ∧ r2.lastModified = now := by
  unfold setFieldValue at hok
  cases hg : getRecordByKey liveSteps APP_DATA_VERSION st key with
  | error e => rw [hg] at hok; cases hok
  | ok pr =>
    obtain ⟨rec, st1⟩ := pr
    rw [hg] at hok
    simp only [Except.ok.injEq] at hok
    obtain ⟨hl, hst, _⟩ := getRecordByKey_live_ok hg
    refine ⟨{ assign rec with
      path := keyToPath key, appDataVersion := APP_DATA_VERSION,
      mimeType := mime, lastModified := now }, ?_, rfl⟩
    rw [← hok, lookup_putRaw]
    have hk : ({ assign rec with
        path := keyToPath key, appDataVersion := APP_DATA_VERSION,
        mimeType := mime, lastModified := now } : KeyValueRecord).key =
        key := by
      simp [hkey rec, lookup_key_eq hl]
    rw [if_pos hk]

/-- C8 amended: per-key `lastModified` strictly increases across a
successful overwrite *provided* the clock value at the write strictly
exceeds the stored timestamp.  `_setFieldValue` stamps `Date.now()` as-is
(no monotonicity clamp), so two writes within the same millisecond leave
`lastModified` unchanged — strict growth is not unconditional. -/
theorem C8_amended :
    (∀ (st : Store) (key : String) (r : KeyValueRecord) (v : Option String)
        (mime : String) (now : Nat) (st2 : Store),
      lookup st key = some r → r.lastModified < now →
      setText st key v mime now = .ok st2 →
      ∃ r2, lookup st2 key = some r2 ∧ r.lastModified < r2.lastModified) ∧
    (∀ (st : Store) (key : String) (r : KeyValueRecord)
        (v : Option (List Nat)) (mime : String) (now : Nat) (st2 : Store),
      lookup st key = some r → r.lastModified < now →
      setBytes st key v mime now = .ok st2 →
      ∃ r2, lookup st2 key = some r2 ∧ r.lastModified < r2.lastModified) := by
  constructor
  · intro st key r v mime now st2 _ hlt hok
    obtain ⟨r2, hl2, he⟩ := setFieldValue_live_stamps st key
      (fun x => { x with text := v }) mime now st2 (fun _ => rfl) hok
    exact ⟨r2, hl2, he ▸ hlt⟩
  · intro st key r v mime now st2 _ hlt hok
    obtain ⟨r2, hl2, he⟩ := setFieldValue_live_stamps st key
      (fun x => { x with bytes := v }) mime now st2 (fun _ => rfl) hok
    exact ⟨r2, hl2, he ▸ hlt⟩

/-- Witness for C8's amended statement: overwrite at a strictly later
clock value. -/
theorem C8_amended_witness :
    ∃ r2, lookup [{ c8rec with text := some "u", lastModified := 7 }] "k" =
        some r2 ∧
      c8rec.lastModified < r2.lastModified :=
  C8_amended.1 [c8rec] "k" c8rec (some "u") MIMETYPE_PLAIN_TEXT 7
    [{ c8rec with text := some "u", lastModified := 7 }] rfl (by decide) rfl

/-!  ## Claim C10 -/

theorem deleteAllKeys_eq_filter : ∀ (keys : List String) (st : Store),
    deleteAllKeys st keys = st.filter (fun r => !(keys.contains r.key)) := by
  intro keys
  induction keys with
  | nil =>
    intro st
    simp [deleteAllKeys]
  | cons k ks ih =>
    intro st
    show deleteAllKeys (deleteRaw st k) ks = _
    rw [ih, deleteRaw, List.filter_filter]
    apply List.filter_congr
    intro r _
    by_cases h1 : r.key = k <;> by_cases h2 : r.key ∈ ks <;> simp [h1, h2]

/-- C10: `deleteAllKeysAtPathExcept(p, exceptKeys)` removes exactly the
records whose `path` field equals `p` and whose key is not excepted; every
record with a different path, and every excepted record, stays in the
store unchanged; and nothing outside the original store appears.  (The
operation is total — it succeeds even when nothing matches, via the early
return.)  The `Nodup` hypothesis is the primary-key uniqueness that
IndexedDb enforces via `keyPath: 'key'`. -/
theorem C10_deleteAllKeysAtPathExcept (st : Store) (p : String)
    (ex : List String) (hN : (st.map (fun r => r.key)).Nodup) :
    (∀ r ∈ st, r.path = p → r.key ∉ ex →
      r ∉ deleteAllKeysAtPathExcept st p ex) ∧
    (∀ r ∈ st, (r.path ≠ p ∨ r.key ∈ ex) →
      r ∈ deleteAllKeysAtPathExcept st p ex) ∧
    (∀ r ∈ deleteAllKeysAtPathExcept st p ex, r ∈ st) := by
  have hdef : deleteAllKeysAtPathExcept st p ex =
      (if ((getAllKeysAtPath st p).filter (fun k => !(ex.contains k))).isEmpty
       then st
       else deleteAllKeys st
         ((getAllKeysAtPath st p).filter (fun k => !(ex.contains k)))) := rfl
  have hktd : ∀ k, (k ∈ (getAllKeysAtPath st p).filter
      (fun k => !(ex.contains k))) ↔
      ((∃ r ∈ st, r.path = p ∧ r.key = k) ∧ k ∉ ex) := by
    intro k
    simp [getAllKeysAtPath, List.mem_filter, List.mem_map]
    tauto
  rw [hdef]
  by_cases hE : ((getAllKeysAtPath st p).filter
      (fun k => !(ex.contains k))).isEmpty
  · rw [if_pos hE]
    rw [List.isEmpty_iff] at hE
    refine ⟨?_, ?_, ?_⟩
    · intro r hr hp hex _
      have : r.key ∈ (getAllKeysAtPath st p).filter
          (fun k => !(ex.contains k)) :=
        (hktd r.key).mpr ⟨⟨r, hr, hp, rfl⟩, hex⟩
      rw [hE] at this
      cases this
    · intro r hr _
      exact hr
    · intro r hr
      exact hr
  · rw [if_neg hE, deleteAllKeys_eq_filter]
    refine ⟨?_, ?_, ?_⟩
    · intro r hr hp hex hcontra
      have hmem := (List.mem_filter.mp hcontra).2
      simp at hmem
      have hgk : r.key ∈ getAllKeysAtPath st p := by
        simp only [getAllKeysAtPath, List.mem_map, List.mem_filter]
        exact ⟨r, ⟨hr, by simp [hp]⟩, rfl⟩
      cases hmem with
      | inl h => exact h hgk
      | inr h => exact hex h
    · intro r hr hor
      refine List.mem_filter.mpr ⟨hr, ?_⟩
      simp only [Bool.not_eq_eq_eq_not, Bool.not_true]
      have hnot : r.key ∉ (getAllKeysAtPath st p).filter
          (fun k => !(ex.contains k)) := by
        intro hin
        obtain ⟨⟨r2, hr2, hp2, hk2⟩, hex2⟩ := (hktd r.key).mp hin
        have : r2 = r := List.inj_on_of_nodup_map hN hr2 hr hk2
        subst this
        cases hor with
        | inl hne => exact hne hp2
        | inr hin2 => exact hex2 hin2
      simpa using hnot
    · intro r hr
      exact List.mem_of_mem_filter hr

def ex1rec : KeyValueRecord :=
  { key := "p/a", path := "p/", appDataVersion := 1, mimeType := "m",
    lastModified := 1, text := none, bytes := none }

def ex2rec : KeyValueRecord :=
  { key := "p/b", path := "p/", appDataVersion := 1, mimeType := "m",
    lastModified := 1, text := none, bytes := none }

def ex3rec : KeyValueRecord :=
  { key := "q/c", path := "q/", appDataVersion := 1, mimeType := "m",
    lastModified := 1, text := none, bytes := none }

/-- Witness for C10: delete at `"p/"` excepting `"p/b"` removes exactly
`"p/a"`. -/
theorem C10_witness :
    ex1rec ∉ deleteAllKeysAtPathExcept [ex1rec, ex2rec, ex3rec] "p/" ["p/b"] ∧
    ex2rec ∈ deleteAllKeysAtPathExcept [ex1rec, ex2rec, ex3rec] "p/" ["p/b"] ∧
    ex3rec ∈ deleteAllKeysAtPathExcept [ex1rec, ex2rec, ex3rec] "p/" ["p/b"] :=
  ⟨(C10_deleteAllKeysAtPathExcept [ex1rec, ex2rec, ex3rec] "p/" ["p/b"]
      (by decide)).1 ex1rec (by decide) rfl (by decide),
   (C10_deleteAllKeysAtPathExcept [ex1rec, ex2rec, ex3rec] "p/" ["p/b"]
      (by decide)).2.1 ex2rec (by decide) (Or.inr (by decide)),
   (C10_deleteAllKeysAtPathExcept [ex1rec, ex2rec, ex3rec] "p/" ["p/b"]
      (by decide)).2.1 ex3rec (by decide) (Or.inl (by decide))⟩

/-!  ## The rename cascade

The per-key replacement performed by `_renamePath` rewrites a record to a
new key and the path recomputed from it, keeping `lastModified` (the
cascade always passes `updateLastModified = false`). -/

/-- The record as rewritten by the cascade's
`_replaceRecordUsingNewKey(…, false)`. -/
def renamedRecord (r : KeyValueRecord) (k2 : String) : KeyValueRecord :=
  { r with key := k2, path := keyToPath k2 }

/-- Characterisation of the fold performed by `_renamePath` over a list of
keys to rename.  Hypotheses: the keys are distinct and present, their
images are fresh (absent from the store), avoid the key list, and are
pairwise distinct.  Conclusion: the fold succeeds, every listed key is
gone, its image holds the rewritten record, and every other key is
untouched. -/
theorem renameFold_spec (cp np : String) :
    ∀ (L : List String) (s : Store),
      L.Nodup →
      (∀ k ∈ L, (lookup s k).isSome) →
      (∀ k ∈ L, lookup s (changePathOfKey k cp np) = none) →
      (∀ k ∈ L, ∀ k2 ∈ L, changePathOfKey k cp np ≠ k2) →
      (∀ k ∈ L, ∀ k2 ∈ L, k ≠ k2 →
        changePathOfKey k cp np ≠ changePathOfKey k2 cp np) →
      ∃ s2,
        (L.foldlM (fun s k =>
            replaceRecordUsingNewKey s k (changePathOfKey k cp np) false 0) s
          = .ok s2) ∧
        ∀ q, lookup s2 q =
          (match L.find? (fun k => changePathOfKey k cp np == q) with
           | some k => (lookup s k).map (fun r =>
               renamedRecord r (changePathOfKey k cp np))
           | none => if q ∈ L then none else lookup s q) := by
  intro L
  induction L with
  | nil =>
    intro s _ _ _ _ _
    refine ⟨s, rfl, ?_⟩
    intro q
    simp [List.find?]
  | cons k0 L2 ih =>
    intro s hnd hSome hFresh hAvoid hInj
    have hk0mem : k0 ∈ k0 :: L2 := List.mem_cons_self k0 L2
    obtain ⟨r0, hr0⟩ : ∃ r0, lookup s k0 = some r0 := by
      cases hl : lookup s k0 with
      | none =>
        have := hSome k0 hk0mem
        rw [hl] at this
        cases this
      | some r0 => exact ⟨r0, rfl⟩
    have hk0nin : k0 ∉ L2 := (List.nodup_cons.mp hnd).1
    have hnd2 : L2.Nodup := (List.nodup_cons.mp hnd).2
    have himg0ne : changePathOfKey k0 cp np ≠ k0 := hAvoid k0 hk0mem k0 hk0mem
    -- the single replacement step
    have hstep : replaceRecordUsingNewKey s k0 (changePathOfKey k0 cp np)
        false 0 =
        .ok (deleteRaw (putRaw s (renamedRecord r0 (changePathOfKey k0 cp np)))
          k0) := by
      unfold replaceRecordUsingNewKey
      rw [hr0]
      rfl
    -- lookups in the store after the single step
    have hL1 : ∀ q,
        lookup (deleteRaw
          (putRaw s (renamedRecord r0 (changePathOfKey k0 cp np))) k0) q =
        if q = k0 then none
        else if changePathOfKey k0 cp np = q
          then some (renamedRecord r0 (changePathOfKey k0 cp np))
          else lookup s q := by
      intro q
      rw [lookup_deleteRaw, lookup_putRaw]
      rfl
    -- facts about the members of the tail
    have hne0 : ∀ k ∈ L2, k ≠ k0 := by
      intro k hk he
      exact hk0nin (he ▸ hk)
    have himgne0 : ∀ k ∈ L2, changePathOfKey k cp np ≠ k0 := by
      intro k hk he
      have h1 := hFresh k (List.mem_cons_of_mem k0 hk)
      rw [he, hr0] at h1
      cases h1
    have himgne : ∀ k ∈ L2,
        changePathOfKey k cp np ≠ changePathOfKey k0 cp np := by
      intro k hk
      exact hInj k (List.mem_cons_of_mem k0 hk) k0 hk0mem (hne0 k hk)
    have hlook2 : ∀ k ∈ L2,
        lookup (deleteRaw
          (putRaw s (renamedRecord r0 (changePathOfKey k0 cp np))) k0) k =
        lookup s k := by
      intro k hk
      rw [hL1 k]
      rw [if_neg (hne0 k hk)]
      rw [if_neg ?_]
      intro he
      exact hAvoid k0 hk0mem k (List.mem_cons_of_mem k0 hk) he
    -- apply the induction hypothesis to the store after the step
    obtain ⟨s2, hfold, hchar⟩ := ih
      (deleteRaw (putRaw s (renamedRecord r0 (changePathOfKey k0 cp np))) k0)
      hnd2
      (by
        intro k hk
        rw [hlook2 k hk]
        exact hSome k (List.mem_cons_of_mem k0 hk))
      (by
        intro k hk
        rw [hL1]
        rw [if_neg (himgne0 k hk)]
        rw [if_neg ?_]
        · exact hFresh k (List.mem_cons_of_mem k0 hk)
        · intro he
          exact himgne k hk he.symm)
      (by
        intro k hk k2 hk2
        exact hAvoid k (List.mem_cons_of_mem k0 hk) k2
          (List.mem_cons_of_mem k0 hk2))
      (by
        intro k hk k2 hk2 hne
        exact hInj k (List.mem_cons_of_mem k0 hk) k2
          (List.mem_cons_of_mem k0 hk2) hne)
    refine ⟨s2, ?_, ?_⟩
    · rw [List.foldlM_cons, hstep]
      exact hfold
    · intro q
      by_cases himg : changePathOfKey k0 cp np = q
      · -- the head's image: holds the rewritten head record
        have hbeq : (changePathOfKey k0 cp np == q) = true := by
          simp [himg]
        have hfind2 : L2.find? (fun k => changePathOfKey k cp np == q)
            = none := by
          cases hf : L2.find? (fun k => changePathOfKey k cp np == q) with
          | none => rfl
          | some k =>
            have hkmem := List.mem_of_find?_eq_some hf
            have hp0 := List.find?_some hf
            have hp : (changePathOfKey k cp np == q) = true := hp0
            exact absurd ((eq_of_beq hp).trans himg.symm) (himgne k hkmem)
        have hqnin : q ∉ L2 := by
          intro hq
          exact hAvoid k0 hk0mem q (List.mem_cons_of_mem k0 hq) himg
        rw [hchar q, hfind2]
        simp only [List.find?_cons, hbeq, hr0]
        rw [if_neg hqnin, hL1 q]
        rw [if_neg (fun he => himg0ne (himg.trans he)), if_pos himg]
        rfl
      · have hbeq : (changePathOfKey k0 cp np == q) = false := by
          simp [himg]
        rw [hchar q]
        simp only [List.find?_cons, hbeq]
        cases hf : L2.find? (fun k => changePathOfKey k cp np == q) with
        | some k =>
          simp only [hf]
          have hkmem := List.mem_of_find?_eq_some hf
          rw [hlook2 k hkmem]
        | none =>
          simp only [hf]
          by_cases hq0 : q = k0
          · subst hq0
            rw [if_neg hk0nin, hL1 q, if_pos rfl,
              if_pos (List.mem_cons_self q L2)]
          · by_cases hq2 : q ∈ L2
            · rw [if_pos hq2, if_pos (List.mem_cons_of_mem k0 hq2)]
            · have hqnin : q ∉ k0 :: L2 := by
                intro h
                cases List.mem_cons.mp h with
                | inl h => exact hq0 h
                | inr h => exact hq2 h
              rw [if_neg hq2, if_neg hqnin, hL1 q, if_neg hq0, if_neg himg]

/-!  ## Claim C6 -/

/-- The data of a rewritten key, when the scanned path really is a leading
piece of the key. -/
theorem changePathOfKey_data (k cp np : String) (t : List Char)
    (h : k.data = cp.data ++ t) :
    (changePathOfKey k cp np).data = np.data ++ t := by
  unfold changePathOfKey
  rw [data_append]
  have : (String.mk (k.data.drop cp.data.length)).data =
      k.data.drop cp.data.length := rfl
  rw [this, h, List.drop_left]

/-- Rewriting is injective on keys that start with the scanned path. -/
theorem changePathOfKey_inj {k k2 cp np : String}
    (h1 : cp.data.isPrefixOf k.data = true)
    (h2 : cp.data.isPrefixOf k2.data = true)
    (h : changePathOfKey k cp np = changePathOfKey k2 cp np) : k = k2 := by
  obtain ⟨t, ht⟩ := isPrefixOf_exists _ _ h1
  obtain ⟨t2, ht2⟩ := isPrefixOf_exists _ _ h2
  have e1 := changePathOfKey_data k cp np t ht
  have e2 := changePathOfKey_data k2 cp np t2 ht2
  have : np.data ++ t = np.data ++ t2 := by
    rw [← e1, ← e2, h]
  have htt : t = t2 := List.append_cancel_left this
  apply str_ext
  rw [ht, ht2, htt]

/-- A key in the store is found by `lookup`. -/
theorem lookup_isSome_of_mem_keys :
    ∀ (st : Store) (k : String), k ∈ getAllKeys st →
      (lookup st k).isSome := by
  intro st
  induction st with
  | nil => intro k h; cases h
  | cons x rest ih =>
    intro k h
    rw [lookup_cons]
    by_cases hx : x.key = k
    · simp [hx]
    · rw [if_neg hx]
      apply ih
      cases List.mem_cons.mp h with
      | inl he => exact absurd he.symm hx
      | inr hm => exact hm

def c6rec : KeyValueRecord :=
  { key := "xa/q", path := "xa/", appDataVersion := 1, mimeType := "m",
    lastModified := 2, text := some "infx", bytes := none }

/-- C6 counterexample: the scan regex of `_renamePath` is unanchored, so
`renamePath("a/", "z/")` also rewrites the key `"xa/q"`, which merely
*contains* `"a/"` and does not have it as a prefix.  The claim demands that
such a key be left entirely unchanged (the read after the rename should
still be `some c6rec`); instead the record is gone (moved to `"z//q"`). -/
theorem C6_counterexample :
    (renamePath [c6rec] "a/" "z/").map (fun s => lookup s "xa/q") =
      .ok none ∧
    "a/".data.isPrefixOf "xa/q".data = false :=
  ⟨rfl, rfl⟩

/-- C6 amended: the scan selects the keys *containing* `currentPath` as a
substring (unanchored regex), not only prefix matches.  Provided every
matched key does have `currentPath` as a prefix and every rewritten key is
fresh (absent from the store), `renamePath` rewrites exactly the matched
keys — prefix substituted, `lastModified` and payload preserved, originals
deleted — and every other stored record is left entirely unchanged. -/
theorem C6_renamePath_on_clean_store (st : Store) (cp np : String)
    (hnd : (st.map (fun r => r.key)).Nodup)
    (hpre : ∀ k ∈ matchedKeys st cp, cp.data.isPrefixOf k.data = true)
    (hfresh : ∀ k ∈ matchedKeys st cp,
      lookup st (changePathOfKey k cp np) = none) :
    ∃ st2, renamePath st cp np = .ok st2 ∧
      (∀ k ∈ matchedKeys st cp, lookup st2 k = none) ∧
      (∀ k ∈ matchedKeys st cp, ∀ r, lookup st k = some r →
        lookup st2 (changePathOfKey k cp np) =
          some (renamedRecord r (changePathOfKey k cp np))) ∧
      (∀ q r, lookup st q = some r → q ∉ matchedKeys st cp →
        lookup st2 q = some r) := by
  have hndL : (matchedKeys st cp).Nodup := by
    unfold matchedKeys getAllKeys
    exact List.Nodup.filter _ hnd
  have hSome : ∀ k ∈ matchedKeys st cp, (lookup st k).isSome := by
    intro k hk
    exact lookup_isSome_of_mem_keys st k (List.mem_of_mem_filter hk)
  have hAvoid : ∀ k ∈ matchedKeys st cp, ∀ k2 ∈ matchedKeys st cp,
      changePathOfKey k cp np ≠ k2 := by
    intro k hk k2 hk2 he
    have h1 := hfresh k hk
    rw [he] at h1
    have h2 := hSome k2 hk2
    rw [h1] at h2
    cases h2
  have hInj : ∀ k ∈ matchedKeys st cp, ∀ k2 ∈ matchedKeys st cp, k ≠ k2 →
      changePathOfKey k cp np ≠ changePathOfKey k2 cp np := by
    intro k hk k2 hk2 hne he
    exact hne (changePathOfKey_inj (hpre k hk) (hpre k2 hk2) he)
  obtain ⟨st2, hfold, hchar⟩ :=
    renameFold_spec cp np (matchedKeys st cp) st hndL hSome hfresh hAvoid hInj
  refine ⟨st2, hfold, ?_, ?_, ?_⟩
  · intro k hk
    rw [hchar k]
    have hfind : (matchedKeys st cp).find?
        (fun k2 => changePathOfKey k2 cp np == k) = none := by
      cases hf : (matchedKeys st cp).find?
          (fun k2 => changePathOfKey k2 cp np == k) with
      | none => rfl
      | some k2 =>
        have hmem := List.mem_of_find?_eq_some hf
        have hp0 := List.find?_some hf
        have hp : (changePathOfKey k2 cp np == k) = true := hp0
        exact absurd (eq_of_beq hp) (hAvoid k2 hmem k hk)
    rw [hfind]
    rw [if_pos hk]
  · intro k hk r hr
    rw [hchar (changePathOfKey k cp np)]
    cases hf : (matchedKeys st cp).find?
        (fun k2 => changePathOfKey k2 cp np == changePathOfKey k cp np) with
    | none =>
      rw [List.find?_eq_none] at hf
      exact absurd (by simp) (hf k hk)
    | some k2 =>
      have hmem := List.mem_of_find?_eq_some hf
      have hp0 := List.find?_some hf
      have hp : (changePathOfKey k2 cp np == changePathOfKey k cp np)
          = true := hp0
      have hkeq : k2 = k := by
        by_contra hne
        exact hInj k2 hmem k hk hne (eq_of_beq hp)
      subst hkeq
      simp only [hf]
      rw [hr]
      rfl
  · intro q r hq hnot
    rw [hchar q]
    have hfind : (matchedKeys st cp).find?
        (fun k2 => changePathOfKey k2 cp np == q) = none := by
      cases hf : (matchedKeys st cp).find?
          (fun k2 => changePathOfKey k2 cp np == q) with
      | none => rfl
      | some k2 =>
        have hmem := List.mem_of_find?_eq_some hf
        have hp0 := List.find?_some hf
        have hp : (changePathOfKey k2 cp np == q) = true := hp0
        have h1 := hfresh k2 hmem
        rw [eq_of_beq hp, hq] at h1
        cases h1
    rw [hfind, if_neg hnot, hq]

def w1rec : KeyValueRecord :=
  { key := "/a/b", path := "/a/", appDataVersion := 1, mimeType := "m",
    lastModified := 1, text := some "one", bytes := none }

def w2rec : KeyValueRecord :=
  { key := "/a/b/c", path := "/a/b/", appDataVersion := 1, mimeType := "m",
    lastModified := 2, text := some "two", bytes := none }

def w3rec : KeyValueRecord :=
  { key := "/other", path := "/", appDataVersion := 1, mimeType := "m",
    lastModified := 3, text := some "three", bytes := none }

/-- Witness for C6's amended statement at the spec's own example:
renaming path `/a/b` to `/a/z` over keys `/a/b`, `/a/b/c`, `/other`. -/
theorem C6_witness :
    ∃ st2, renamePath [w1rec, w2rec, w3rec] "/a/b" "/a/z" = .ok st2 ∧
      (∀ k ∈ matchedKeys [w1rec, w2rec, w3rec] "/a/b",
        lookup st2 k = none) ∧
      (∀ k ∈ matchedKeys [w1rec, w2rec, w3rec] "/a/b",
        ∀ r, lookup [w1rec, w2rec, w3rec] k = some r →
        lookup st2 (changePathOfKey k "/a/b" "/a/z") =
          some (renamedRecord r (changePathOfKey k "/a/b" "/a/z"))) ∧
      (∀ q r, lookup [w1rec, w2rec, w3rec] q = some r →
        q ∉ matchedKeys [w1rec, w2rec, w3rec] "/a/b" →
        lookup st2 q = some r) :=
  C6_renamePath_on_clean_store [w1rec, w2rec, w3rec] "/a/b" "/a/z"
    (by decide) (by decide) (by decide)

/-!  ## Claim C5 -/

def c5rec : KeyValueRecord :=
  { key := "a", path := "", appDataVersion := 1, mimeType := "m",
    lastModified := 1, text := some "main", bytes := none }

/-- C5 counterexample: `renameKey("a", "a/b")` succeeds, but the final
store holds no record at the next key `"a/b"`: the cascade's unanchored
scan for `"a/"` also matches the just-moved record `"a/b"` and moves it
again, to `"a/b/b"`.  The claim demands that the record be re-stored under
`nextKey`, i.e. the lookup should be `some` of the moved record. -/
theorem C5_counterexample :
    (renameKey [c5rec] "a" "a/b" 99).map (fun s => lookup s "a/b") =
      .ok none := rfl

theorem putRaw_of_absent : ∀ (st : Store) (r : KeyValueRecord),
    lookup st r.key = none → putRaw st r = st ++ [r] := by
  intro st r
  induction st with
  | nil => intro _; rfl
  | cons x rest ih =>
    intro h
    rw [lookup_cons] at h
    by_cases hx : x.key = r.key
    · rw [if_pos hx] at h
      cases h
    · rw [if_neg hx] at h
      have hb : (x.key == r.key) = false := by simp [hx]
      simp only [putRaw, hb]
      rw [ih h]
      rfl

/-- The key list can never match the bare `currentKey` itself: the scanned
path `currentKey ++ "/"` is longer than `currentKey`. -/
theorem not_hasSub_self_slash (ck : String) :
    hasSub (ck ++ "/").data ck.data = false := by
  cases hval : hasSub (ck ++ "/").data ck.data
  · rfl
  · exfalso
    have hle := hasSub_length_le _ _ hval
    rw [data_append] at hle
    simp [List.length_append] at hle

/-- The record as re-stored under `nextKey` by the single-record move of
`renameKey` (`_replaceRecordUsingNewKey` with `updateLastModified = true`). -/
def movedRecord (r0 : KeyValueRecord) (nk : String) (now : Nat) :
    KeyValueRecord :=
  { r0 with key := nk, path := keyToPath nk, lastModified := now }

/-- C5 amended: `renameKey` fails when no record exists at `currentKey`;
otherwise it re-stores the record under `nextKey` (path recomputed,
`lastModified` restamped), deletes `currentKey`, and then rewrites every
key of the resulting store that *contains* `currentKey ++ "/"` as a
substring (unanchored scan, not only prefix descendants) by replacing its
leading `currentKey ++ "/"` with `nextKey ++ "/"`, preserving each moved
record's `lastModified`.  The descendant conclusions hold provided the
matched keys really are prefix descendants, `nextKey` is fresh and outside
the scanned subtree, and the rewritten keys are fresh — without those
provisos the cascade can move the re-stored record away from `nextKey`
(see the counterexample) or collide rewritten keys. -/
theorem C5_renameKey_clean :
    (∀ (st : Store) (ck nk : String) (now : Nat),
      lookup st ck = none →
      renameKey st ck nk now = .error .missingRecordOnRename) ∧
    (∀ (st : Store) (ck nk : String) (now : Nat) (r0 : KeyValueRecord),
      (st.map (fun r => r.key)).Nodup →
      lookup st ck = some r0 →
      lookup st nk = none →
      hasSub (ck ++ "/").data nk.data = false →
      (∀ k ∈ matchedKeys st (ck ++ "/"),
        (ck ++ "/").data.isPrefixOf k.data = true) →
      (∀ k ∈ matchedKeys st (ck ++ "/"),
        lookup st (changePathOfKey k (ck ++ "/") (nk ++ "/")) = none ∧
        changePathOfKey k (ck ++ "/") (nk ++ "/") ≠ nk) →
      ∃ st2, renameKey st ck nk now = .ok st2 ∧
        lookup st2 nk = some (movedRecord r0 nk now) ∧
        lookup st2 ck = none ∧
        (∀ k ∈ matchedKeys st (ck ++ "/"), ∀ r, lookup st k = some r →
          lookup st2 (changePathOfKey k (ck ++ "/") (nk ++ "/")) =
            some (renamedRecord r
              (changePathOfKey k (ck ++ "/") (nk ++ "/"))) ∧
          lookup st2 k = none)) := by
  constructor
  · intro st ck nk now h
    unfold renameKey replaceRecordUsingNewKey
    rw [h]
  · intro st ck nk now r0 hnd hcur hnk hnomatch hpre hfresh
    have hckne : ck ≠ nk := by
      intro he
      rw [he, hnk] at hcur
      cases hcur
    -- the store after the single-record move
    have hrep : replaceRecordUsingNewKey st ck nk true now =
        .ok (deleteRaw (putRaw st (movedRecord r0 nk now)) ck) := by
      unfold replaceRecordUsingNewKey
      rw [hcur]
      rfl
    have hlook1 : ∀ q,
        lookup (deleteRaw (putRaw st (movedRecord r0 nk now)) ck) q =
        if q = ck then none
        else if nk = q
          then some (movedRecord r0 nk now)
          else lookup st q := by
      intro q
      rw [lookup_deleteRaw, lookup_putRaw]
      rfl
    -- the scanned subtree is unaffected by the single-record move
    have hckunmatched : hasSub (ck ++ "/").data ck.data = false :=
      not_hasSub_self_slash ck
    have hmatched1 : ∀ q,
        (q ∈ matchedKeys (deleteRaw (putRaw st (movedRecord r0 nk now)) ck) (ck ++ "/")) ↔
        q ∈ matchedKeys st (ck ++ "/") := by
      intro q
      unfold matchedKeys getAllKeys deleteRaw
      rw [putRaw_of_absent st _ hnk]
      constructor
      · intro hq
        have hq2 := List.mem_filter.mp hq
        obtain ⟨r, hr, hkey⟩ := List.mem_map.mp hq2.1
        have hr2 := List.mem_filter.mp hr
        cases List.mem_append.mp hr2.1 with
        | inl hin =>
          exact List.mem_filter.mpr
            ⟨List.mem_map.mpr ⟨r, hin, hkey⟩, hq2.2⟩
        | inr hin =>
          rw [List.mem_singleton] at hin
          subst hin
          have hkey2 : nk = q := hkey
          have hq3 : hasSub (ck ++ "/").data q.data = true := hq2.2
          rw [← hkey2] at hq3
          rw [hq3] at hnomatch
          cases hnomatch
      · intro hq
        have hq2 := List.mem_filter.mp hq
        obtain ⟨r, hr, hkey⟩ := List.mem_map.mp hq2.1
        have hqck : q ≠ ck := by
          intro he
          have hq3 : hasSub (ck ++ "/").data q.data = true := hq2.2
          rw [he] at hq3
          rw [hq3] at hckunmatched
          cases hckunmatched
        refine List.mem_filter.mpr ⟨?_, hq2.2⟩
        refine List.mem_map.mpr ⟨r, ?_, hkey⟩
        refine List.mem_filter.mpr ⟨List.mem_append.mpr (Or.inl hr), ?_⟩
        simp [hkey, hqck]
    -- primary keys stay unique after the single-record move
    have hnd1 : ((deleteRaw (putRaw st (movedRecord r0 nk now)) ck).map
          (fun r => r.key)).Nodup := by
      rw [putRaw_of_absent st _ hnk]
      unfold deleteRaw
      rw [List.filter_append, List.map_append]
      rw [List.nodup_append]
      refine ⟨?_, ?_, ?_⟩
      · exact List.Nodup.sublist
          (List.Sublist.map _ (List.filter_sublist st)) hnd
      · have hone : List.filter (fun r => !(r.key == ck))
            [(movedRecord r0 nk now)] =
            [(movedRecord r0 nk now)] := by
          simp [movedRecord, Ne.symm hckne]
        rw [hone]
        exact List.nodup_singleton _
      · intro a ha hb
        have hone : List.filter (fun r => !(r.key == ck))
            [(movedRecord r0 nk now)] =
            [(movedRecord r0 nk now)] := by
          simp [movedRecord, Ne.symm hckne]
        rw [hone, List.map_singleton, List.mem_singleton] at hb
        obtain ⟨r, hr, hkey⟩ := List.mem_map.mp ha
        have hrs := List.mem_of_mem_filter hr
        have hsome : (lookup st a).isSome :=
          lookup_isSome_of_mem_keys st a (List.mem_map.mpr ⟨r, hrs, hkey⟩)
        rw [hb] at hsome
        have hsome2 : (lookup st nk).isSome := hsome
        rw [hnk] at hsome2
        cases hsome2
    -- hypotheses of the fold characterisation, over the moved store
    have hndL : (matchedKeys (deleteRaw (putRaw st (movedRecord r0 nk now)) ck)
        (ck ++ "/")).Nodup := by
      unfold matchedKeys getAllKeys
      exact List.Nodup.filter _ hnd1
    have hSome1 : ∀ k ∈ matchedKeys (deleteRaw (putRaw st (movedRecord r0 nk now)) ck)
        (ck ++ "/"),
        (lookup (deleteRaw (putRaw st (movedRecord r0 nk now)) ck) k).isSome := by
      intro k hk
      exact lookup_isSome_of_mem_keys _ k (List.mem_of_mem_filter hk)
    have hkmatch : ∀ k ∈ matchedKeys st (ck ++ "/"),
        k ≠ ck ∧ k ≠ nk := by
      intro k hk
      have hk2 := List.mem_filter.mp hk
      have hk3 : hasSub (ck ++ "/").data k.data = true := hk2.2
      constructor
      · intro he
        rw [he] at hk3
        rw [hk3] at hckunmatched
        cases hckunmatched
      · intro he
        rw [he] at hk3
        rw [hk3] at hnomatch
        cases hnomatch
    have himgck : ∀ k ∈ matchedKeys st (ck ++ "/"),
        changePathOfKey k (ck ++ "/") (nk ++ "/") ≠ ck := by
      intro k hk he
      have h1 := (hfresh k hk).1
      rw [he, hcur] at h1
      cases h1
    have hlookeq : ∀ k ∈ matchedKeys st (ck ++ "/"),
        lookup (deleteRaw (putRaw st (movedRecord r0 nk now)) ck) k =
        lookup st k := by
      intro k hk
      rw [hlook1 k, if_neg (hkmatch k hk).1,
        if_neg (fun he => (hkmatch k hk).2 he.symm)]
    have hFresh1 : ∀ k ∈ matchedKeys (deleteRaw (putRaw st (movedRecord r0 nk now)) ck)
        (ck ++ "/"),
        lookup (deleteRaw (putRaw st (movedRecord r0 nk now)) ck)
          (changePathOfKey k (ck ++ "/") (nk ++ "/")) = none := by
      intro k hk
      have hks := (hmatched1 k).mp hk
      rw [hlook1, if_neg (himgck k hks),
        if_neg (fun he => (hfresh k hks).2 he.symm)]
      exact (hfresh k hks).1
    have hAvoid1 : ∀ k ∈ matchedKeys (deleteRaw (putRaw st (movedRecord r0 nk now)) ck)
        (ck ++ "/"),
        ∀ k2 ∈ matchedKeys (deleteRaw (putRaw st (movedRecord r0 nk now)) ck) (ck ++ "/"),
        changePathOfKey k (ck ++ "/") (nk ++ "/") ≠ k2 := by
      intro k hk k2 hk2 he
      have h1 := hFresh1 k hk
      rw [he] at h1
      have h2 := hSome1 k2 hk2
      rw [h1] at h2
      cases h2
    have hInj1 : ∀ k ∈ matchedKeys (deleteRaw (putRaw st (movedRecord r0 nk now)) ck)
        (ck ++ "/"),
        ∀ k2 ∈ matchedKeys (deleteRaw (putRaw st (movedRecord r0 nk now)) ck) (ck ++ "/"),
        k ≠ k2 →
        changePathOfKey k (ck ++ "/") (nk ++ "/") ≠
          changePathOfKey k2 (ck ++ "/") (nk ++ "/") := by
      intro k hk k2 hk2 hne he
      exact hne (changePathOfKey_inj (hpre k ((hmatched1 k).mp hk))
        (hpre k2 ((hmatched1 k2).mp hk2)) he)
    obtain ⟨st2, hfold, hchar⟩ := renameFold_spec (ck ++ "/") (nk ++ "/")
      (matchedKeys (deleteRaw (putRaw st (movedRecord r0 nk now)) ck) (ck ++ "/"))
      (deleteRaw (putRaw st (movedRecord r0 nk now)) ck)
      hndL hSome1 hFresh1 hAvoid1 hInj1
    have hrk : renameKey st ck nk now = .ok st2 := by
      unfold renameKey
      rw [hrep]
      exact hfold
    refine ⟨st2, hrk, ?_, ?_, ?_⟩
    · -- the record lands at nextKey and stays there
      rw [hchar nk]
      have hfind : (matchedKeys (deleteRaw (putRaw st (movedRecord r0 nk now)) ck)
          (ck ++ "/")).find?
          (fun k => changePathOfKey k (ck ++ "/") (nk ++ "/") == nk)
          = none := by
        cases hf : (matchedKeys (deleteRaw (putRaw st (movedRecord r0 nk now)) ck)
            (ck ++ "/")).find?
            (fun k => changePathOfKey k (ck ++ "/") (nk ++ "/") == nk) with
        | none => rfl
        | some k =>
          have hmem := List.mem_of_find?_eq_some hf
          have hp0 := List.find?_some hf
          have hp : (changePathOfKey k (ck ++ "/") (nk ++ "/") == nk)
              = true := hp0
          exact absurd (eq_of_beq hp)
            ((hfresh k ((hmatched1 k).mp hmem)).2)
      rw [hfind]
      have hnin : nk ∉ matchedKeys (deleteRaw (putRaw st (movedRecord r0 nk now)) ck)
          (ck ++ "/") := by
        intro hin
        have h3 : hasSub (ck ++ "/").data nk.data = true :=
          (List.mem_filter.mp ((hmatched1 nk).mp hin)).2
        rw [h3] at hnomatch
        cases hnomatch
      rw [if_neg hnin, hlook1 nk, if_neg (Ne.symm hckne), if_pos rfl]
    · -- currentKey is gone
      rw [hchar ck]
      have hfind : (matchedKeys (deleteRaw (putRaw st (movedRecord r0 nk now)) ck)
          (ck ++ "/")).find?
          (fun k => changePathOfKey k (ck ++ "/") (nk ++ "/") == ck)
          = none := by
        cases hf : (matchedKeys (deleteRaw (putRaw st (movedRecord r0 nk now)) ck)
            (ck ++ "/")).find?
            (fun k => changePathOfKey k (ck ++ "/") (nk ++ "/") == ck) with
        | none => rfl
        | some k =>
          have hmem := List.mem_of_find?_eq_some hf
          have hp0 := List.find?_some hf
          have hp : (changePathOfKey k (ck ++ "/") (nk ++ "/") == ck)
              = true := hp0
          exact absurd (eq_of_beq hp) (himgck k ((hmatched1 k).mp hmem))
      rw [hfind]
      have hnin : ck ∉ matchedKeys (deleteRaw (putRaw st (movedRecord r0 nk now)) ck)
          (ck ++ "/") := by
        intro hin
        have h3 : hasSub (ck ++ "/").data ck.data = true :=
          (List.mem_filter.mp ((hmatched1 ck).mp hin)).2
        rw [h3] at hckunmatched
        cases hckunmatched
      rw [if_neg hnin, hlook1 ck, if_pos rfl]
    · -- every (clean) descendant is moved, record intact
      intro k hk r hr
      have hk1 : k ∈ matchedKeys (deleteRaw (putRaw st (movedRecord r0 nk now)) ck)
          (ck ++ "/") := (hmatched1 k).mpr hk
      constructor
      · rw [hchar (changePathOfKey k (ck ++ "/") (nk ++ "/"))]
        cases hf : (matchedKeys (deleteRaw (putRaw st (movedRecord r0 nk now)) ck)
            (ck ++ "/")).find?
            (fun k2 => changePathOfKey k2 (ck ++ "/") (nk ++ "/") ==
              changePathOfKey k (ck ++ "/") (nk ++ "/")) with
        | none =>
          rw [List.find?_eq_none] at hf
          exact absurd (by simp) (hf k hk1)
        | some k2 =>
          have hmem := List.mem_of_find?_eq_some hf
          have hp0 := List.find?_some hf
          have hp : (changePathOfKey k2 (ck ++ "/") (nk ++ "/") ==
              changePathOfKey k (ck ++ "/") (nk ++ "/")) = true := hp0
          have hkeq : k2 = k := by
            by_contra hne
            exact hInj1 k2 hmem k hk1 hne (eq_of_beq hp)
          subst hkeq
          simp only [hf]
          rw [hlookeq k2 hk, hr]
          rfl
      · rw [hchar k]
        have hfind : (matchedKeys (deleteRaw (putRaw st (movedRecord r0 nk now)) ck)
            (ck ++ "/")).find?
            (fun k2 => changePathOfKey k2 (ck ++ "/") (nk ++ "/") == k)
            = none := by
          cases hf : (matchedKeys (deleteRaw (putRaw st (movedRecord r0 nk now)) ck)
              (ck ++ "/")).find?
              (fun k2 => changePathOfKey k2 (ck ++ "/") (nk ++ "/") == k)
              with
          | none => rfl
          | some k2 =>
            have hmem := List.mem_of_find?_eq_some hf
            have hp0 := List.find?_some hf
            have hp : (changePathOfKey k2 (ck ++ "/") (nk ++ "/") == k)
                = true := hp0
            exact absurd (eq_of_beq hp) (hAvoid1 k2 hmem k hk1)
        rw [hfind, if_pos hk1]

def c5desc : KeyValueRecord :=
  { key := "a/x", path := "a/", appDataVersion := 1, mimeType := "m",
    lastModified := 4, text := some "child", bytes := none }

/-- Witness for C5's amended statement: renaming key `"a"` (with
descendant `"a/x"`) to the fresh key `"b"` outside the scanned subtree. -/
theorem C5_witness :
    ∃ st2, renameKey [c5rec, c5desc] "a" "b" 50 = .ok st2 ∧
      lookup st2 "b" = some (movedRecord c5rec "b" 50) ∧
      lookup st2 "a" = none ∧
      (∀ k ∈ matchedKeys [c5rec, c5desc] ("a" ++ "/"), ∀ r,
        lookup [c5rec, c5desc] k = some r →
        lookup st2 (changePathOfKey k ("a" ++ "/") ("b" ++ "/")) =
          some (renamedRecord r (changePathOfKey k ("a" ++ "/") ("b" ++ "/"))) ∧
        lookup st2 k = none) :=
  C5_renameKey_clean.2 [c5rec, c5desc] "a" "b" 50 c5rec (by decide) rfl rfl
    (by decide) (by decide) (by decide)

end PathStore
